import Mathlib

/-
Verification development for `nengolib/signal/lyapunov.py`.

The module under study computes gramians, balanced realizations, Hankel
singular values, and a two-sided iterative bound on the L1 norm of an
analog LTI system.  Scalars are modelled by `ℚ` (exact arithmetic stands
in for the floating-point reals).  External numeric collaborators that
the module consumes as black boxes (the Lyapunov-equation solver, `eig`,
`cholesky`, `svd`, `fminbound`, `cont2discrete`, the square-root
primitive) are modelled as explicit parameters, constrained by
hypotheses stating exactly the contracts the surrounding code relies on.
-/

namespace Nengolib

/-! ## `state_norm` (lyapunov.py lines 24-42)

`state_norm(sys, norm='H2')` computes `sqrt` of the diagonal of the
controllability gramian `P = _H2P(A, B, analog)` when `norm == 'H2'`,
and raises `NotImplementedError("norm must be one of: H2")` otherwise.
The gramian `P` (output of the external Lyapunov solver) and the
square-root primitive `rsqrt` are parameters. -/

def state_norm {n : ℕ} (norm : String) (P : Matrix (Fin n) (Fin n) ℚ)
    (rsqrt : ℚ → ℚ) : Except String (Fin n → ℚ) :=
  if norm = "H2" then Except.ok (fun i => rsqrt (P i i))
  else Except.error "norm must be one of: H2"

/-! ## The `l1_norm` iteration (lyapunov.py lines 124-223)

The refinement loop of `l1_norm` keeps a state `(L, U, N, T)`:
lower bound, upper bound, sample count and horizon.  Each iteration
computes, from the current state and the system, four scalars
`L_impulse`, `L_tail`, `U_impulse`, `U_tail` (lines 186-216: the
discretized impulse response, its absolute sum, the tail corrections via
`fminbound`/`solve_lyapunov`, and the refined-interval upper sum).
Those computations are compositions of the external collaborators, so
they are modelled as an oracle function from the loop state to the four
scalars; the bound updates, the loop guard, the doubling schedule and
the returned pair are taken verbatim from the source. -/

/-- The four per-iteration scalars produced by the numeric collaborators
(lines 186-216 of lyapunov.py). -/
structure L1Obs where
  L_impulse : ℚ
  L_tail : ℚ
  U_impulse : ℚ
  U_tail : ℚ

/-- The loop-local state of `l1_norm` (lines 178-180): bounds `L ≤ U`,
sample count `N`, horizon `T`. -/
structure L1State where
  L : ℚ
  U : ℚ
  N : ℕ
  T : ℚ

/-- Loop guard (line 182): `N <= max_length and .5 * (U - L) / L >= rtol`. -/
def l1_guard (rtol : ℚ) (max_length : ℕ) (s : L1State) : Bool :=
  decide (s.N ≤ max_length) && decide (rtol ≤ 1 / 2 * (s.U - s.L) / s.L)

/-- One iteration of the refinement loop (lines 184-221), given the
oracle scalars `o` for this iteration:
`L = max(L, L_impulse + L_tail)` (line 195),
`U = max(min(U, U_impulse + U_tail), L)` with the updated `L` (line 217),
`N *= 2` (line 219), and `T *= 2` exactly when
`U_impulse - L_impulse < U_tail - L_tail` (lines 220-221). -/
def l1_step (o : L1Obs) (s : L1State) : L1State :=
  let L := max s.L (o.L_impulse + o.L_tail)
  let U := max (min s.U (o.U_impulse + o.U_tail)) L
  { L := L
    U := U
    N := 2 * s.N
    T := if o.U_impulse - o.L_impulse < o.U_tail - o.L_tail then 2 * s.T
         else s.T }

/-- The `while` loop of lines 182-221, with an explicit fuel argument.
Since `N` doubles on every iteration, fuel `max_length + 1` is always
sufficient (proved below): at that depth the guard is already false, so
the fuelled recursion computes exactly the source's unbounded loop. -/
def l1_loop (oracle : L1State → L1Obs) (rtol : ℚ) (max_length : ℕ) :
    ℕ → L1State → L1State
  | 0, s => s
  | fuel + 1, s =>
    if l1_guard rtol max_length s then
      l1_loop oracle rtol max_length fuel (l1_step (oracle s) s)
    else s

/-- Number of loop-body executions performed by `l1_loop`. -/
def l1_count (oracle : L1State → L1Obs) (rtol : ℚ) (max_length : ℕ) :
    ℕ → L1State → ℕ
  | 0, _ => 0
  | fuel + 1, s =>
    if l1_guard rtol max_length s then
      l1_count oracle rtol max_length fuel (l1_step (oracle s) s) + 1
    else 0

/-- Initial loop state (lines 164, 178-180): `L = |G0| = |dcgain - D|`,
`U = fopt` (the `fminbound`-minimized initial tail bound), `N = 2^4`,
`T = -1/alpha`. -/
def l1_initState (dcgain D fopt alpha : ℚ) : L1State :=
  { L := |dcgain - D|, U := fopt, N := 2 ^ 4, T := -1 / alpha }

/-- Errors raised by `l1_norm` (lines 150-151 and 157-159): the
non-analog `ValueError`, and the instability `ValueError` carrying the
offending eigenvalue bound `alpha`. -/
inductive L1Error where
  | notAnalog : L1Error
  | unstable : ℚ → L1Error
deriving DecidableEq

/-- `l1_norm` (lines 124-223).  `analog` is the system's flag; `alpha`
is the externally computed `max(eig(A).real)` (line 156); `dcgain` and
`D` come from the system adapter; `fopt` is the `fminbound` output for
the initial upper bound (lines 174-175); `oracle` packages the
per-iteration collaborator outputs.  Returns
`((U + L) / 2 + |D|, .5 * (U - L) / L)` at the final state (line 223). -/
def l1_norm (analog : Bool) (alpha dcgain D fopt : ℚ)
    (oracle : L1State → L1Obs) (rtol : ℚ) (max_length : ℕ) :
    Except L1Error (ℚ × ℚ) :=
  if analog = false then Except.error L1Error.notAnalog
  else if 0 ≤ alpha then Except.error (L1Error.unstable alpha)
  else
    let s := l1_loop oracle rtol max_length (max_length + 1)
      (l1_initState dcgain D fopt alpha)
    Except.ok ((s.U + s.L) / 2 + |D|, 1 / 2 * (s.U - s.L) / s.L)

/-! ## `balanced_transformation` and `hankel` (lyapunov.py lines 67-112)

`balanced_transformation` Cholesky-factors the gramians `R = LR·LRᵗ`,
`O = LO·LOᵗ`, takes the singular value decomposition
`LOᵗ·LR = U·diag(S)·Vh` (scipy returns the right factor already
transposed), and forms `T = LR·Vhᵗ·diag(S^(-1/2))` (column scaling,
line 92) and `Tinv = diag(S^(-1/2))·Uᵗ·LOᵗ` (row scaling, line 93).
The external factorization outputs `LR`, `LO`, `U`, `Vh`, `S`, and the
external square roots `sq` of the singular values (`sq i * sq i = S i`)
are parameters, constrained by the orthogonality and decomposition
equations the SVD guarantees. -/

/-- `T = np.dot(LR, V.T) * S ** (-1. / 2)` (line 92): columns of
`LR·Vhᵗ` scaled by the reciprocal square roots of `S`. -/
def balanced_T {n : ℕ} (LR Vh : Matrix (Fin n) (Fin n) ℚ)
    (sq : Fin n → ℚ) : Matrix (Fin n) (Fin n) ℚ :=
  LR * Vh.transpose * Matrix.diagonal (fun i => (sq i)⁻¹)

/-- `Tinv = (S ** (-1. / 2))[:, None] * np.dot(U.T, LO.T)` (line 93):
rows of `Uᵗ·LOᵗ` scaled by the reciprocal square roots of `S`. -/
def balanced_Tinv {n : ℕ} (LO U : Matrix (Fin n) (Fin n) ℚ)
    (sq : Fin n → ℚ) : Matrix (Fin n) (Fin n) ℚ :=
  Matrix.diagonal (fun i => (sq i)⁻¹) * U.transpose * LO.transpose

/-- The triple `(T, Tinv, S)` returned by `balanced_transformation`
(line 95); the singular values `S` are passed through in decomposition
order, without re-sorting. -/
def balanced_transformation {n : ℕ} (LR LO U Vh : Matrix (Fin n) (Fin n) ℚ)
    (sq S : Fin n → ℚ) :
    Matrix (Fin n) (Fin n) ℚ × Matrix (Fin n) (Fin n) ℚ × (Fin n → ℚ) :=
  (balanced_T LR Vh sq, balanced_Tinv LO U sq, S)

/-- `hankel` (line 112): `np.sort(np.sqrt(abs(eig(np.dot(O, R))[0])))[::-1]`
— map absolute value then the external square root `rsqrt` over the
externally computed eigenvalue list, sort ascending, reverse. -/
def hankel (rsqrt : ℚ → ℚ) (eigs : List ℚ) : List ℚ :=
  ((eigs.map fun μ => rsqrt |μ|).insertionSort (· ≤ ·)).reverse

/-- `μ` is an eigenvalue of `M`: some nonzero vector satisfies
`M·v = μ·v`.  This is the contract of the external `eig` primitive at
the set level. -/
def hasEigenvalue {n : ℕ} (M : Matrix (Fin n) (Fin n) ℚ) (μ : ℚ) : Prop :=
  ∃ v : Fin n → ℚ, v ≠ 0 ∧ M.mulVec v = μ • v

/-! ## Theorems -/

/-- C8: `state_norm(sys, norm='H2')` returns, per state coordinate, the
square root of the corresponding diagonal entry of the controllability
gramian; any other `norm` fails with the unsupported-option error naming
`H2` as the only legal value, and in that case no computation on the
system is attempted (the result does not depend on the gramian or the
square-root primitive at all). -/
theorem state_norm_spec {n : ℕ} (norm : String)
    (P P' : Matrix (Fin n) (Fin n) ℚ) (rsqrt rsqrt' : ℚ → ℚ) :
    (norm = "H2" →
      state_norm norm P rsqrt = Except.ok (fun i => rsqrt (P i i)))
    ∧ (norm ≠ "H2" →
      state_norm norm P rsqrt = Except.error "norm must be one of: H2")
    ∧ (norm ≠ "H2" →
      state_norm norm P rsqrt = state_norm norm P' rsqrt') := by
  refine ⟨fun h => ?_, fun h => ?_, fun h => ?_⟩ <;> simp [state_norm, h]

theorem state_norm_spec_witness :
    (state_norm "H2" (1 : Matrix (Fin 1) (Fin 1) ℚ) id =
      Except.ok (fun i => id ((1 : Matrix (Fin 1) (Fin 1) ℚ) i i)))
    ∧ (state_norm "L1" (1 : Matrix (Fin 1) (Fin 1) ℚ) id =
      Except.error "norm must be one of: H2") :=
  ⟨(state_norm_spec "H2" 1 1 id id).1 rfl,
   (state_norm_spec "L1" 1 1 id id).2.1 (by decide)⟩

/-- C3: `l1_norm` fails with the non-analog value error whenever the
input system is not analog; on an analog system it fails with the
instability value error carrying `alpha = max(eig(A).real)` whenever
`alpha` is non-negative; and for analog systems with `alpha < 0`
neither error is raised (the call returns a result pair). -/
theorem l1_norm_error_conditions (analog : Bool) (alpha dcgain D fopt : ℚ)
    (oracle : L1State → L1Obs) (rtol : ℚ) (max_length : ℕ) :
    (analog = false →
      l1_norm analog alpha dcgain D fopt oracle rtol max_length =
        Except.error L1Error.notAnalog)
    ∧ (analog = true → 0 ≤ alpha →
      l1_norm analog alpha dcgain D fopt oracle rtol max_length =
        Except.error (L1Error.unstable alpha))
    ∧ (analog = true → alpha < 0 →
      ∃ p, l1_norm analog alpha dcgain D fopt oracle rtol max_length =
        Except.ok p) := by
  refine ⟨fun h => ?_, fun h h0 => ?_, fun h h0 => ?_⟩
  · simp [l1_norm, h]
  · simp [l1_norm, h, h0]
  · subst h
    apply Exists.intro
    unfold l1_norm
    rw [if_neg (by simp), if_neg (not_le.mpr h0)]

theorem l1_norm_error_conditions_witness :
    (l1_norm false (-1) 1 0 2 (fun _ => ⟨0, 0, 0, 0⟩) 1 8 =
      Except.error L1Error.notAnalog)
    ∧ (l1_norm true 1 1 0 2 (fun _ => ⟨0, 0, 0, 0⟩) 1 8 =
      Except.error (L1Error.unstable 1))
    ∧ (∃ p, l1_norm true (-1) 1 0 2 (fun _ => ⟨0, 0, 0, 0⟩) 1 8 =
      Except.ok p) :=
  ⟨(l1_norm_error_conditions false (-1) 1 0 2 _ 1 8).1 rfl,
   (l1_norm_error_conditions true 1 1 0 2 _ 1 8).2.1 rfl (by norm_num),
   (l1_norm_error_conditions true (-1) 1 0 2 _ 1 8).2.2 rfl (by norm_num)⟩

/-- C1: one iteration of `l1_norm`'s refinement loop is monotone.  On a
BIBO-stable analog input the loop invariant `L ≤ U` holds on entry and
the iteration's lower estimate `L_impulse + L_tail` is a true lower
bound on the norm, hence does not exceed the upper bound `U`; under
those facts the updated `L` is non-decreasing, the updated `U` is
non-increasing (the `max(min(U, ·), L)` clip never pushes it above its
old value), and `L ≤ U` holds again at the end of the iteration. -/
theorem l1_step_monotone_bounds (o : L1Obs) (s : L1State)
    (hLU : s.L ≤ s.U) (hsound : o.L_impulse + o.L_tail ≤ s.U) :
    s.L ≤ (l1_step o s).L
    ∧ (l1_step o s).U ≤ s.U
    ∧ (l1_step o s).L ≤ (l1_step o s).U := by
  refine ⟨le_max_left _ _, ?_, le_max_right _ _⟩
  exact max_le (min_le_left _ _) (max_le hLU hsound)

theorem l1_step_monotone_bounds_witness :
    (1 : ℚ) ≤ (l1_step ⟨1, 1, 2, 0⟩ ⟨1, 3, 16, 1⟩).L
    ∧ (l1_step ⟨1, 1, 2, 0⟩ ⟨1, 3, 16, 1⟩).U ≤ 3
    ∧ (l1_step ⟨1, 1, 2, 0⟩ ⟨1, 3, 16, 1⟩).L ≤
        (l1_step ⟨1, 1, 2, 0⟩ ⟨1, 3, 16, 1⟩).U :=
  l1_step_monotone_bounds ⟨1, 1, 2, 0⟩ ⟨1, 3, 16, 1⟩ (by norm_num)
    (by norm_num)

/-- C6: in every iteration of the loop, `N` is doubled unconditionally,
and `T` is doubled exactly when
`U_impulse - L_impulse < U_tail - L_tail` — the source's test that the
iteration's tail gap shrank more slowly than its impulse-sum gap —
otherwise `T` is left unchanged; for a nonzero horizon the doubling of
`T` is equivalent to that condition. -/
theorem l1_step_schedule (o : L1Obs) (s : L1State) :
    (l1_step o s).N = 2 * s.N
    ∧ (l1_step o s).T =
      (if o.U_impulse - o.L_impulse < o.U_tail - o.L_tail then 2 * s.T
       else s.T)
    ∧ (s.T ≠ 0 →
      ((l1_step o s).T = 2 * s.T ↔
        o.U_impulse - o.L_impulse < o.U_tail - o.L_tail)) := by
  refine ⟨rfl, rfl, fun hT => ?_⟩
  by_cases h : o.U_impulse - o.L_impulse < o.U_tail - o.L_tail
  · simp [l1_step, h]
  · simp only [l1_step, if_neg h]
    exact iff_of_false (fun h2 => hT (by linarith)) h


theorem l1_step_schedule_witness :
    (l1_step ⟨0, 0, 0, 1⟩ ⟨0, 0, 1, 1⟩).N = 2 * 1
    ∧ (l1_step ⟨0, 0, 0, 1⟩ ⟨0, 0, 1, 1⟩).T =
      (if (0 : ℚ) - 0 < 1 - 0 then 2 * 1 else 1)
    ∧ ((l1_step ⟨0, 0, 0, 1⟩ ⟨0, 0, 1, 1⟩).T = 2 * 1 ↔
        (0 : ℚ) - 0 < 1 - 0) :=
  ⟨(l1_step_schedule ⟨0, 0, 0, 1⟩ ⟨0, 0, 1, 1⟩).1,
   (l1_step_schedule ⟨0, 0, 0, 1⟩ ⟨0, 0, 1, 1⟩).2.1,
   (l1_step_schedule ⟨0, 0, 0, 1⟩ ⟨0, 0, 1, 1⟩).2.2 (by norm_num)⟩

/-- C9: `l1_norm` divides by the lower bound `L` in the loop guard
`.5 * (U - L) / L >= rtol` (and in the returned half-width) with no
guard against `L = 0`.  For any analog BIBO-stable system whose
`dcgain` equals its feedthrough `D`, the initial lower bound
`L = |dcgain - D|` is exactly `0`, so the divisor of the very first
guard evaluation is `0` — and `l1_norm` performs no check to prevent
it: the call still proceeds past the error checks and returns a pair. -/
theorem l1_norm_zero_lower_bound_division (alpha dcgain D fopt : ℚ)
    (oracle : L1State → L1Obs) (rtol : ℚ) (max_length : ℕ)
    (hdc : dcgain = D) (halpha : alpha < 0) :
    (l1_initState dcgain D fopt alpha).L = 0
    ∧ ∃ p, l1_norm true alpha dcgain D fopt oracle rtol max_length =
        Except.ok p := by
  constructor
  · simp [l1_initState, hdc]
  · apply Exists.intro
    unfold l1_norm
    rw [if_neg (by simp), if_neg (not_le.mpr halpha)]

theorem l1_norm_zero_lower_bound_division_witness :
    (l1_initState 1 1 2 (-1)).L = 0
    ∧ ∃ p, l1_norm true (-1) 1 1 2 (fun _ => ⟨0, 0, 0, 0⟩) 1 8 =
        Except.ok p :=
  l1_norm_zero_lower_bound_division (-1) 1 1 2 (fun _ => ⟨0, 0, 0, 0⟩) 1 8
    rfl (by norm_num)

/-- C10: when `max_length < 16` the loop guard `N <= max_length` fails
immediately (the initial `N` is `2^4 = 16`), the refinement loop body
never executes, and `l1_norm` returns the pair formed purely from the
initial bounds `L0 = |dcgain - D|` and `U0 = fopt` (the minimized
initial tail bound): `((U0 + L0) / 2 + |D|, .5 * (U0 - L0) / L0)`. -/
theorem l1_norm_small_max_length (alpha dcgain D fopt : ℚ)
    (oracle : L1State → L1Obs) (rtol : ℚ) (max_length : ℕ)
    (halpha : alpha < 0) (hml : max_length < 16) :
    l1_norm true alpha dcgain D fopt oracle rtol max_length =
      Except.ok ((fopt + |dcgain - D|) / 2 + |D|,
        1 / 2 * (fopt - |dcgain - D|) / |dcgain - D|) := by
  have hg : l1_guard rtol max_length (l1_initState dcgain D fopt alpha) =
      false := by
    unfold l1_guard l1_initState
    simp only
    rw [decide_eq_false (by omega : ¬ ((2 : ℕ) ^ 4 ≤ max_length))]
    simp
  have hloop : l1_loop oracle rtol max_length (max_length + 1)
      (l1_initState dcgain D fopt alpha) =
      l1_initState dcgain D fopt alpha := by
    simp only [l1_loop, hg, Bool.false_eq_true, if_false]
  unfold l1_norm
  rw [if_neg (by simp), if_neg (not_le.mpr halpha)]
  simp only [hloop]
  simp [l1_initState]

theorem l1_norm_small_max_length_witness :
    l1_norm true (-1) 1 0 2 (fun _ => ⟨0, 0, 0, 0⟩) 1 0 =
      Except.ok ((2 + |(1 : ℚ) - 0|) / 2 + |(0 : ℚ)|,
        1 / 2 * (2 - |(1 : ℚ) - 0|) / |(1 : ℚ) - 0|) :=
  l1_norm_small_max_length (-1) 1 0 2 (fun _ => ⟨0, 0, 0, 0⟩) 1 0
    (by norm_num) (by norm_num)

/-- A false guard means the loop body never runs, whatever the fuel. -/
theorem l1_count_eq_zero (oracle : L1State → L1Obs) (rtol : ℚ)
    (max_length fuel : ℕ) (s : L1State)
    (h : l1_guard rtol max_length s = false) :
    l1_count oracle rtol max_length fuel s = 0 := by
  cases fuel <;> simp [l1_count, h]

/-- Since `N` at least doubles per iteration and the guard requires
`N ≤ max_length`, the number of executed loop bodies is bounded by
`log2(max_length / N) + 1` for any positive starting `N`. -/
theorem l1_count_le_log (oracle : L1State → L1Obs) (rtol : ℚ)
    (max_length : ℕ) :
    ∀ fuel s, 1 ≤ s.N →
      l1_count oracle rtol max_length fuel s ≤
        Nat.log 2 (max_length / s.N) + 1 := by
  intro fuel
  induction fuel with
  | zero => intro s _; simp [l1_count]
  | succ fuel ih =>
    intro s hN
    by_cases hg : l1_guard rtol max_length s = true
    · have hNle : s.N ≤ max_length := by
        have h := hg
        unfold l1_guard at h
        simp only [Bool.and_eq_true, decide_eq_true_eq] at h
        exact h.1
      have hsN : (l1_step (oracle s) s).N = 2 * s.N := rfl
      rw [l1_count, if_pos hg]
      by_cases hdouble : 2 * s.N ≤ max_length
      · have ihs := ih (l1_step (oracle s) s) (by omega)
        rw [hsN] at ihs
        have hdiv : max_length / (2 * s.N) = max_length / s.N / 2 := by
          rw [Nat.div_div_eq_div_mul, Nat.mul_comm]
        have h2le : 2 ≤ max_length / s.N := by
          rw [Nat.le_div_iff_mul_le (by omega : 0 < s.N)]
          omega
        have hlog : Nat.log 2 (max_length / s.N / 2) =
            Nat.log 2 (max_length / s.N) - 1 :=
          Nat.log_div_base 2 (max_length / s.N)
        have hpos : 0 < Nat.log 2 (max_length / s.N) :=
          Nat.log_pos (by norm_num) h2le
        rw [hdiv, hlog] at ihs
        omega
      · have hg' : l1_guard rtol max_length (l1_step (oracle s) s) =
            false := by
          unfold l1_guard
          rw [decide_eq_false (by omega : ¬ ((l1_step (oracle s) s).N ≤
            max_length))]
          simp
        rw [l1_count_eq_zero oracle rtol max_length fuel _ hg']
        omega
    · rw [l1_count_eq_zero oracle rtol max_length _ s (by simpa using hg)]
      omega

/-- C5: the refinement loop of `l1_norm` always terminates.  The sample
count starts at `N = 2^4 = 16` in the initial state, every iteration
doubles `N`, the guard only admits `N ≤ max_length`, and consequently
the loop body executes at most `log2(max_length / 16) + 1` times from
the initial state — for every oracle and every tolerance, including
ones the loop can never satisfy. -/
theorem l1_loop_terminates (oracle : L1State → L1Obs) (rtol : ℚ)
    (max_length : ℕ) (dcgain D fopt alpha : ℚ) :
    (l1_initState dcgain D fopt alpha).N = 16
    ∧ (∀ o s, (l1_step o s).N = 2 * s.N)
    ∧ (∀ s, l1_guard rtol max_length s = true → s.N ≤ max_length)
    ∧ (∀ fuel, l1_count oracle rtol max_length fuel
        (l1_initState dcgain D fopt alpha) ≤
          Nat.log 2 (max_length / 16) + 1) := by
  refine ⟨rfl, fun o s => rfl, fun s h => ?_, fun fuel => ?_⟩
  · unfold l1_guard at h
    simp only [Bool.and_eq_true, decide_eq_true_eq] at h
    exact h.1
  · have h := l1_count_le_log oracle rtol max_length fuel
      (l1_initState dcgain D fopt alpha) (by norm_num [l1_initState])
    have hN : (l1_initState dcgain D fopt alpha).N = 16 := rfl
    rw [hN] at h
    exact h

theorem l1_loop_terminates_witness :
    (l1_initState 1 0 2 (-1)).N = 16
    ∧ (l1_step ⟨0, 0, 0, 0⟩ ⟨1, 3, 16, 1⟩).N = 2 * 16
    ∧ ((⟨1, 3, 16, 1⟩ : L1State).N ≤ 16)
    ∧ l1_count (fun _ => ⟨0, 0, 0, 0⟩) 0 16 17 (l1_initState 1 0 2 (-1)) ≤
        Nat.log 2 (16 / 16) + 1 :=
  ⟨(l1_loop_terminates (fun _ => ⟨0, 0, 0, 0⟩) 0 16 1 0 2 (-1)).1,
   (l1_loop_terminates (fun _ => ⟨0, 0, 0, 0⟩) 0 16 1 0 2 (-1)).2.1
     ⟨0, 0, 0, 0⟩ ⟨1, 3, 16, 1⟩,
   (l1_loop_terminates (fun _ => ⟨0, 0, 0, 0⟩) 0 16 1 0 2 (-1)).2.2.1
     ⟨1, 3, 16, 1⟩ (by norm_num [l1_guard]),
   (l1_loop_terminates (fun _ => ⟨0, 0, 0, 0⟩) 0 16 1 0 2 (-1)).2.2.2 17⟩

/-- Running the loop with fuel `f` from a state whose `N` satisfies
`max_length < N * 2^f` ends in a state where the guard is false: the
fuelled loop has genuinely exited, matching the source's unbounded
`while`. -/
theorem l1_loop_guard_exit (oracle : L1State → L1Obs) (rtol : ℚ)
    (max_length : ℕ) :
    ∀ fuel s, 1 ≤ s.N → max_length < s.N * 2 ^ fuel →
      l1_guard rtol max_length (l1_loop oracle rtol max_length fuel s) =
        false := by
  intro fuel
  induction fuel with
  | zero =>
    intro s h1 h2
    rw [pow_zero, mul_one] at h2
    simp only [l1_loop]
    unfold l1_guard
    rw [decide_eq_false (by omega : ¬ (s.N ≤ max_length))]
    simp
  | succ fuel ih =>
    intro s h1 h2
    rw [l1_loop]
    by_cases hg : l1_guard rtol max_length s = true
    · rw [if_pos hg]
      have hsN : (l1_step (oracle s) s).N = 2 * s.N := rfl
      apply ih
      · omega
      · rw [hsN]
        have heq : s.N * 2 ^ (fuel + 1) = 2 * s.N * 2 ^ fuel := by ring
        exact lt_of_lt_of_eq h2 heq
    · rw [if_neg hg]
      simpa using hg

/-- C4: for an analog BIBO-stable system, `l1_norm` returns
`((U + L) / 2 + |D|, .5 * (U - L) / L)` formed from the final loop
state, and the loop has genuinely exited at that state: either the
sample-count ceiling has been passed (`max_length < N`, a normal return
rather than an error) or the relative half-width has dropped below
`rtol`. -/
theorem l1_norm_returns_final_bounds (alpha dcgain D fopt : ℚ)
    (oracle : L1State → L1Obs) (rtol : ℚ) (max_length : ℕ)
    (halpha : alpha < 0) :
    l1_norm true alpha dcgain D fopt oracle rtol max_length =
      Except.ok
        (((l1_loop oracle rtol max_length (max_length + 1)
            (l1_initState dcgain D fopt alpha)).U +
          (l1_loop oracle rtol max_length (max_length + 1)
            (l1_initState dcgain D fopt alpha)).L) / 2 + |D|,
         1 / 2 *
          ((l1_loop oracle rtol max_length (max_length + 1)
            (l1_initState dcgain D fopt alpha)).U -
           (l1_loop oracle rtol max_length (max_length + 1)
            (l1_initState dcgain D fopt alpha)).L) /
          (l1_loop oracle rtol max_length (max_length + 1)
            (l1_initState dcgain D fopt alpha)).L)
    ∧ (max_length < (l1_loop oracle rtol max_length (max_length + 1)
          (l1_initState dcgain D fopt alpha)).N
       ∨ 1 / 2 *
          ((l1_loop oracle rtol max_length (max_length + 1)
            (l1_initState dcgain D fopt alpha)).U -
           (l1_loop oracle rtol max_length (max_length + 1)
            (l1_initState dcgain D fopt alpha)).L) /
          (l1_loop oracle rtol max_length (max_length + 1)
            (l1_initState dcgain D fopt alpha)).L < rtol) := by
  constructor
  · unfold l1_norm
    rw [if_neg (by simp), if_neg (not_le.mpr halpha)]
  · have hbound : max_length <
        (l1_initState dcgain D fopt alpha).N * 2 ^ (max_length + 1) := by
      have hN : (l1_initState dcgain D fopt alpha).N = 16 := rfl
      have h1 : max_length < 2 ^ max_length := Nat.lt_two_pow max_length
      have h2 : 2 ^ (max_length + 1) = 2 ^ max_length * 2 :=
        pow_succ 2 max_length
      rw [hN]
      omega
    have hfin := l1_loop_guard_exit oracle rtol max_length
      (max_length + 1) (l1_initState dcgain D fopt alpha)
      (by norm_num [l1_initState]) hbound
    unfold l1_guard at hfin
    simp only [Bool.and_eq_false_iff, decide_eq_false_iff_not, not_le]
      at hfin
    exact hfin

theorem l1_norm_returns_final_bounds_witness :
    l1_norm true (-1) 1 0 2 (fun _ => ⟨0, 0, 0, 0⟩) 1 0 =
      Except.ok
        (((l1_loop (fun _ => ⟨0, 0, 0, 0⟩) 1 0 (0 + 1)
            (l1_initState 1 0 2 (-1))).U +
          (l1_loop (fun _ => ⟨0, 0, 0, 0⟩) 1 0 (0 + 1)
            (l1_initState 1 0 2 (-1))).L) / 2 + |(0 : ℚ)|,
         1 / 2 *
          ((l1_loop (fun _ => ⟨0, 0, 0, 0⟩) 1 0 (0 + 1)
            (l1_initState 1 0 2 (-1))).U -
           (l1_loop (fun _ => ⟨0, 0, 0, 0⟩) 1 0 (0 + 1)
            (l1_initState 1 0 2 (-1))).L) /
          (l1_loop (fun _ => ⟨0, 0, 0, 0⟩) 1 0 (0 + 1)
            (l1_initState 1 0 2 (-1))).L)
    ∧ (0 < (l1_loop (fun _ => ⟨0, 0, 0, 0⟩) 1 0 (0 + 1)
          (l1_initState 1 0 2 (-1))).N
       ∨ 1 / 2 *
          ((l1_loop (fun _ => ⟨0, 0, 0, 0⟩) 1 0 (0 + 1)
            (l1_initState 1 0 2 (-1))).U -
           (l1_loop (fun _ => ⟨0, 0, 0, 0⟩) 1 0 (0 + 1)
            (l1_initState 1 0 2 (-1))).L) /
          (l1_loop (fun _ => ⟨0, 0, 0, 0⟩) 1 0 (0 + 1)
            (l1_initState 1 0 2 (-1))).L < 1) :=
  l1_norm_returns_final_bounds (-1) 1 0 2 (fun _ => ⟨0, 0, 0, 0⟩) 1 0
    (by norm_num)

/-- Core algebra of the balancing transform: with
`LOᵗ·LR = U·diag(S)·Vh` a singular value decomposition (orthogonal
`U`, `Vh`; `sq` the square roots of the singular values `S`), the
returned pair multiplies to the identity in the order `Tinv · T`. -/
theorem balanced_Tinv_mul_T {n : ℕ} (LR LO U Vh : Matrix (Fin n) (Fin n) ℚ)
    (S sq : Fin n → ℚ)
    (hU : U.transpose * U = 1) (hV : Vh * Vh.transpose = 1)
    (hsq : ∀ i, sq i * sq i = S i) (hsq0 : ∀ i, sq i ≠ 0)
    (hsvd : LO.transpose * LR = U * Matrix.diagonal S * Vh) :
    balanced_Tinv LO U sq * balanced_T LR Vh sq = 1 := by
  have hsvd' : ∀ X : Matrix (Fin n) (Fin n) ℚ,
      LO.transpose * (LR * X) = U * (Matrix.diagonal S * (Vh * X)) := by
    intro X
    rw [← Matrix.mul_assoc, hsvd]
    simp only [Matrix.mul_assoc]
  have hU' : ∀ X : Matrix (Fin n) (Fin n) ℚ,
      U.transpose * (U * X) = X := by
    intro X
    rw [← Matrix.mul_assoc, hU, Matrix.one_mul]
  have hV' : ∀ X : Matrix (Fin n) (Fin n) ℚ,
      Vh * (Vh.transpose * X) = X := by
    intro X
    rw [← Matrix.mul_assoc, hV, Matrix.one_mul]
  unfold balanced_T balanced_Tinv
  simp only [Matrix.mul_assoc]
  rw [hsvd', hU', hV', Matrix.diagonal_mul_diagonal,
    Matrix.diagonal_mul_diagonal]
  have hfun : (fun i => (sq i)⁻¹ * (S i * (sq i)⁻¹)) =
      fun _ : Fin n => (1 : ℚ) := by
    funext i
    rw [← hsq i]
    have h0 := hsq0 i
    field_simp
  rw [hfun, Matrix.diagonal_one]

/-- C2: `balanced_transformation` computes the SVD
`LOᵗ·LR = U·diag(S)·Vh` of the Cholesky factors and returns
`T = LR·Vhᵗ·diag(S^(-1/2))` and `Tinv = diag(S^(-1/2))·Uᵗ·LOᵗ` together
with `S`, and the returned pair satisfies `T · Tinv = 1` exactly (in
exact arithmetic; the gramians being positive definite is reflected in
the hypotheses that the Cholesky/SVD factors exist with nonzero
singular values). -/
theorem balanced_transformation_inverse {n : ℕ}
    (LR LO U Vh : Matrix (Fin n) (Fin n) ℚ) (S sq : Fin n → ℚ)
    (hU : U.transpose * U = 1) (hV : Vh * Vh.transpose = 1)
    (hsq : ∀ i, sq i * sq i = S i) (hsq0 : ∀ i, sq i ≠ 0)
    (hsvd : LO.transpose * LR = U * Matrix.diagonal S * Vh) :
    (balanced_transformation LR LO U Vh sq S).1 = balanced_T LR Vh sq
    ∧ (balanced_transformation LR LO U Vh sq S).2.1 =
        balanced_Tinv LO U sq
    ∧ (balanced_transformation LR LO U Vh sq S).2.2 = S
    ∧ (balanced_transformation LR LO U Vh sq S).1 *
        (balanced_transformation LR LO U Vh sq S).2.1 = 1 :=
  ⟨rfl, rfl, rfl,
   Matrix.mul_eq_one_comm.mpr
     (balanced_Tinv_mul_T LR LO U Vh S sq hU hV hsq hsq0 hsvd)⟩

theorem balanced_transformation_inverse_witness :
    (balanced_transformation (n := 1) 1 1 1 1 (fun _ => 1) (fun _ => 1)).1 =
      balanced_T 1 1 (fun _ => 1)
    ∧ (balanced_transformation (n := 1) 1 1 1 1 (fun _ => 1)
        (fun _ => 1)).2.1 = balanced_Tinv 1 1 (fun _ => 1)
    ∧ (balanced_transformation (n := 1) 1 1 1 1 (fun _ => 1)
        (fun _ => 1)).2.2 = (fun _ => 1)
    ∧ (balanced_transformation (n := 1) 1 1 1 1 (fun _ => 1)
        (fun _ => 1)).1 *
      (balanced_transformation (n := 1) 1 1 1 1 (fun _ => 1)
        (fun _ => 1)).2.1 = 1 :=
  balanced_transformation_inverse 1 1 1 1 (fun _ => 1) (fun _ => 1)
    (by simp) (by simp) (fun i => by norm_num) (fun i => one_ne_zero)
    (by simp)

/-- The balancing transform diagonalizes the gramian product: with
`R = LR·LRᵗ` and `O = LO·LOᵗ`, `Tinv · (R·O) · T = diag(S²)`.  This is
the algebraic content of "`S` are the square roots of the eigenvalues
of `R·O`". -/
theorem balanced_RO_similar {n : ℕ} (LR LO U Vh : Matrix (Fin n) (Fin n) ℚ)
    (S sq : Fin n → ℚ)
    (hU : U.transpose * U = 1) (hV : Vh * Vh.transpose = 1)
    (hsq : ∀ i, sq i * sq i = S i) (hsq0 : ∀ i, sq i ≠ 0)
    (hsvd : LO.transpose * LR = U * Matrix.diagonal S * Vh) :
    balanced_Tinv LO U sq * ((LR * LR.transpose) * (LO * LO.transpose)) *
      balanced_T LR Vh sq = Matrix.diagonal (fun i => S i * S i) := by
  have hsvd' : ∀ X : Matrix (Fin n) (Fin n) ℚ,
      LO.transpose * (LR * X) = U * (Matrix.diagonal S * (Vh * X)) := by
    intro X
    rw [← Matrix.mul_assoc, hsvd]
    simp only [Matrix.mul_assoc]
  have hsvdT : LR.transpose * LO =
      Vh.transpose * (Matrix.diagonal S * U.transpose) := by
    have h := congrArg Matrix.transpose hsvd
    rw [Matrix.transpose_mul, Matrix.transpose_transpose,
      Matrix.transpose_mul, Matrix.transpose_mul,
      Matrix.diagonal_transpose] at h
    rw [h]
  have hsvdT' : ∀ X : Matrix (Fin n) (Fin n) ℚ,
      LR.transpose * (LO * X) =
        Vh.transpose * (Matrix.diagonal S * (U.transpose * X)) := by
    intro X
    rw [← Matrix.mul_assoc, hsvdT]
    simp only [Matrix.mul_assoc]
  have hU' : ∀ X : Matrix (Fin n) (Fin n) ℚ,
      U.transpose * (U * X) = X := by
    intro X
    rw [← Matrix.mul_assoc, hU, Matrix.one_mul]
  have hV' : ∀ X : Matrix (Fin n) (Fin n) ℚ,
      Vh * (Vh.transpose * X) = X := by
    intro X
    rw [← Matrix.mul_assoc, hV, Matrix.one_mul]
  unfold balanced_T balanced_Tinv
  simp only [Matrix.mul_assoc]
  rw [hsvd', hsvd', hU', hV', hsvdT', hU', hV',
    Matrix.diagonal_mul_diagonal, Matrix.diagonal_mul_diagonal,
    Matrix.diagonal_mul_diagonal, Matrix.diagonal_mul_diagonal]
  have hfun : (fun i => (sq i)⁻¹ * (S i * (S i * (S i * (sq i)⁻¹)))) =
      fun i => S i * S i := by
    funext i
    rw [← hsq i]
    have h0 := hsq0 i
    field_simp
    ring
  rw [hfun]

/-- Transposed similarity, for the product `O·R` that `hankel` uses:
`Tᵗ · (O·R) · Tinvᵗ = diag(S²)`. -/
theorem balanced_OR_similar {n : ℕ} (LR LO U Vh : Matrix (Fin n) (Fin n) ℚ)
    (S sq : Fin n → ℚ)
    (hU : U.transpose * U = 1) (hV : Vh * Vh.transpose = 1)
    (hsq : ∀ i, sq i * sq i = S i) (hsq0 : ∀ i, sq i ≠ 0)
    (hsvd : LO.transpose * LR = U * Matrix.diagonal S * Vh) :
    (balanced_T LR Vh sq).transpose *
      ((LO * LO.transpose) * (LR * LR.transpose)) *
      (balanced_Tinv LO U sq).transpose =
      Matrix.diagonal (fun i => S i * S i) := by
  have h := balanced_RO_similar LR LO U Vh S sq hU hV hsq hsq0 hsvd
  have ht := congrArg Matrix.transpose h
  simp only [Matrix.transpose_mul, Matrix.transpose_transpose,
    Matrix.diagonal_transpose, Matrix.mul_assoc] at ht
  simp only [Matrix.mul_assoc]
  exact ht

/-- Eigenvalues of a matrix conjugate to a diagonal matrix are exactly
the diagonal entries. -/
theorem hasEigenvalue_iff_of_conj {n : ℕ}
    (M X Y : Matrix (Fin n) (Fin n) ℚ) (d : Fin n → ℚ)
    (hXY : X * Y = 1) (hYX : Y * X = 1)
    (hconj : X * M * Y = Matrix.diagonal d) (μ : ℚ) :
    hasEigenvalue M μ ↔ ∃ j, d j = μ := by
  constructor
  · rintro ⟨v, hv0, hMv⟩
    have hw0 : X.mulVec v ≠ 0 := by
      intro h0
      apply hv0
      have hYXv : Y.mulVec (X.mulVec v) = v := by
        rw [Matrix.mulVec_mulVec, hYX, Matrix.one_mulVec]
      rw [← hYXv, h0, Matrix.mulVec_zero]
    have hdiag : (Matrix.diagonal d).mulVec (X.mulVec v) =
        μ • X.mulVec v := by
      rw [← hconj, Matrix.mulVec_mulVec, Matrix.mul_assoc, hYX,
        Matrix.mul_one, ← Matrix.mulVec_mulVec, hMv, Matrix.mulVec_smul]
    obtain ⟨j, hj⟩ : ∃ j, X.mulVec v j ≠ 0 := by
      by_contra hc
      push_neg at hc
      exact hw0 (funext fun j => hc j)
    refine ⟨j, ?_⟩
    have hcomp := congrFun hdiag j
    rw [Matrix.mulVec_diagonal] at hcomp
    have hμ : d j * X.mulVec v j = μ * X.mulVec v j := hcomp
    exact mul_right_cancel₀ hj hμ
  · rintro ⟨j, rfl⟩
    have hM : M = Y * Matrix.diagonal d * X := by
      calc M = 1 * M * 1 := by rw [Matrix.one_mul, Matrix.mul_one]
      _ = (Y * X) * M * (Y * X) := by rw [hYX]
      _ = Y * (X * M * Y) * X := by simp only [Matrix.mul_assoc]
      _ = Y * Matrix.diagonal d * X := by rw [hconj]
    refine ⟨Y.mulVec (Pi.single j 1), ?_, ?_⟩
    · intro h0
      have hXY1 : X.mulVec (Y.mulVec (Pi.single j 1)) =
          Pi.single j 1 := by
        rw [Matrix.mulVec_mulVec, hXY, Matrix.one_mulVec]
      have : (Pi.single j 1 : Fin n → ℚ) = 0 := by
        rw [← hXY1, h0, Matrix.mulVec_zero]
      have h1 := congrFun this j
      simp [Pi.single_eq_same] at h1
    · have hsingle : (Pi.single j (d j) : Fin n → ℚ) =
          d j • (Pi.single j 1 : Fin n → ℚ) := by
        funext i
        by_cases hij : i = j
        · subst hij
          simp [Pi.single_eq_same]
        · simp [Pi.single_eq_of_ne hij]
      rw [hM, Matrix.mulVec_mulVec,
        Matrix.mul_assoc (Y * Matrix.diagonal d) X Y, hXY, Matrix.mul_one,
        ← Matrix.mulVec_mulVec, Matrix.diagonal_mulVec_single, mul_one,
        hsingle, Matrix.mulVec_smul]

/-- C7: `hankel` returns the descending-sorted square roots of the
absolute values of the eigenvalues of `O·R`, and its value set is
exactly the set of singular values `S` that `balanced_transformation`
returns — equal up to sort order, with `balanced_transformation`
passing `S` through unsorted.  The external `eig` is assumed correct at
the set level (`heig`) and the external square root correct on the
values it is applied to (`hrs`); the eigenvalues of `O·R` are then
proved to be exactly the `S j²` via the balancing similarity. -/
theorem hankel_matches_balanced_S {n : ℕ}
    (LR LO U Vh : Matrix (Fin n) (Fin n) ℚ) (S sq : Fin n → ℚ)
    (rsqrt : ℚ → ℚ) (eigs : List ℚ)
    (hU : U.transpose * U = 1) (hV : Vh * Vh.transpose = 1)
    (hsq : ∀ i, sq i * sq i = S i) (hsq0 : ∀ i, sq i ≠ 0)
    (hsvd : LO.transpose * LR = U * Matrix.diagonal S * Vh)
    (heig : ∀ μ, μ ∈ eigs ↔
      hasEigenvalue ((LO * LO.transpose) * (LR * LR.transpose)) μ)
    (hrs : ∀ i, rsqrt (S i * S i) = S i) :
    (∀ x, x ∈ hankel rsqrt eigs ↔ ∃ i, S i = x)
    ∧ (hankel rsqrt eigs).Sorted (fun a b => b ≤ a)
    ∧ (balanced_transformation LR LO U Vh sq S).2.2 = S := by
  have hTinvT : balanced_Tinv LO U sq * balanced_T LR Vh sq = 1 :=
    balanced_Tinv_mul_T LR LO U Vh S sq hU hV hsq hsq0 hsvd
  have hTTinv : balanced_T LR Vh sq * balanced_Tinv LO U sq = 1 :=
    Matrix.mul_eq_one_comm.mpr hTinvT
  have hXY : (balanced_T LR Vh sq).transpose *
      (balanced_Tinv LO U sq).transpose = 1 := by
    rw [← Matrix.transpose_mul, hTinvT, Matrix.transpose_one]
  have hYX : (balanced_Tinv LO U sq).transpose *
      (balanced_T LR Vh sq).transpose = 1 := by
    rw [← Matrix.transpose_mul, hTTinv, Matrix.transpose_one]
  have hconj := balanced_OR_similar LR LO U Vh S sq hU hV hsq hsq0 hsvd
  have heigchar : ∀ μ,
      hasEigenvalue ((LO * LO.transpose) * (LR * LR.transpose)) μ ↔
        ∃ j, S j * S j = μ :=
    fun μ => hasEigenvalue_iff_of_conj _ _ _ _ hXY hYX hconj μ
  refine ⟨fun x => ?_, ?_, rfl⟩
  · unfold hankel
    rw [List.mem_reverse, (List.perm_insertionSort _ _).mem_iff,
      List.mem_map]
    constructor
    · rintro ⟨μ, hμ, hx⟩
      obtain ⟨j, hj⟩ := (heigchar μ).mp ((heig μ).mp hμ)
      refine ⟨j, ?_⟩
      rw [← hx, ← hj, abs_mul_self, hrs j]
    · rintro ⟨j, hj⟩
      refine ⟨S j * S j, (heig _).mpr ((heigchar _).mpr ⟨j, rfl⟩), ?_⟩
      rw [abs_mul_self, hrs j, hj]
  · exact List.pairwise_reverse.mpr (List.sorted_insertionSort _ _)

theorem hankel_matches_balanced_S_witness :
    (∀ x, x ∈ hankel (fun y => y) [1] ↔ ∃ _i : Fin 1, (1 : ℚ) = x)
    ∧ (hankel (fun y => y) [1]).Sorted (fun a b => b ≤ a)
    ∧ (balanced_transformation (n := 1) 1 1 1 1 (fun _ => 1)
        (fun _ => 1)).2.2 = (fun _ => 1) := by
  have h := hankel_matches_balanced_S (n := 1) 1 1 1 1 (fun _ => 1)
    (fun _ => 1) (fun y => y) [1]
    (by simp) (by simp) (fun i => by norm_num) (fun i => one_ne_zero)
    (by simp)
    ?_ (fun i => by norm_num)
  · exact h
  · intro μ
    have hOR : ((1 : Matrix (Fin 1) (Fin 1) ℚ) *
        (1 : Matrix (Fin 1) (Fin 1) ℚ).transpose) *
        ((1 : Matrix (Fin 1) (Fin 1) ℚ) *
        (1 : Matrix (Fin 1) (Fin 1) ℚ).transpose) = 1 := by simp
    rw [hOR]
    constructor
    · intro hμ
      have hμ1 : μ = 1 := by simpa using hμ
      subst hμ1
      refine ⟨fun _ => 1, ?_, ?_⟩
      · intro hz
        have := congrFun hz 0
        norm_num at this
      · rw [Matrix.one_mulVec, one_smul]
    · rintro ⟨v, hv0, hv⟩
      rw [Matrix.one_mulVec] at hv
      obtain ⟨i, hi⟩ : ∃ i, v i ≠ 0 := by
        by_contra hc
        push_neg at hc
        exact hv0 (funext fun i => hc i)
      have hvi : v i = μ * v i := by
        have := congrFun hv i
        simpa [smul_eq_mul] using this
      have hμ1 : μ = 1 := by
        have h1 : μ * v i = 1 * v i := by rw [one_mul, ← hvi]
        exact mul_right_cancel₀ hi h1
      simp [hμ1]

end Nengolib
